import Mathlib

/-!
Shallow embedding of `src/cleaner.c` (an interactive disk-usage explorer) and
proofs about its tree model, child sorting, deletion engine and navigation.

Modelling conventions:
* `struct file` / `struct directory` become the inductive `Cleaner.Node`; the
  directory constructor carries the extra fields (`self_size`, `subdirs`,
  `subdirs_sorted`).  `off_t` sizes are modelled as `Nat` (stat sizes are
  non-negative and no subtraction or overflow occurs in the code).
* Filesystem syscalls are abstracted: `lstat`/`opendir`/`readdir` outcomes are
  given by the inductive `Cleaner.FS`, and `unlink`/`rmdir` outcomes by a
  `Cleaner.Oracle` keyed by the node's path (`none` = success,
  `some e` = failure with `errno = e`).
* The C functions `err(errno, ...)` from `<err.h>` print a message and
  TERMINATE the process with exit status `errno`; they do not return.  The
  embedding is therefore written in `Except Nat`, where `.error e` means the
  process exited with code `e` at that point; the C statements that follow an
  `err` call are dead and disappear into the short-circuit.
* Pointer navigation (`f->parent`) is modelled by paths: a node in the tree is
  addressed by the list of child indices from the root.  `&f->parent->file`
  when `f->parent == NULL` is an address computation at offset 0 (the
  `struct file` is the first member), which yields the null pointer without
  any memory access; it is embedded as `none`.
-/

namespace Cleaner

/-- In-memory node: `struct file` (constructor `file`) or `struct directory`
(constructor `dir`).  `ftype` is `(st_mode & S_IFMT) >> 12`; a directory has
`ftype = 4` (`S_IFDIR >> 12`) or `4 ||| 16 = 20` when `opendir` failed
(`DIRECTORY_UNLISTABLE = 020`). -/
inductive Node where
  | file (name : String) (ftype : Nat) (size : Nat)
  | dir (name : String) (ftype : Nat) (size : Nat) (self_size : Nat)
        (subdirs : List Node) (subdirs_sorted : Bool)

/-- Field accessor for `file->size` (shared first member of both structs). -/
def Node.size : Node → Nat
  | .file _ _ sz => sz
  | .dir _ _ sz _ _ _ => sz

/-- Field accessor for `file->name`. -/
def Node.name : Node → String
  | .file n _ _ => n
  | .dir n _ _ _ _ _ => n

/-- Sum of the `size` fields of a list of nodes, as accumulated by the loops
in `build_tree` and `update_size`. -/
def sizeSum : List Node → Nat
  | [] => 0
  | c :: cs => c.size + sizeSum cs

mutual
/-- Boolean version of the size invariant of spec section 3: every directory
satisfies `size == self_size + Σ(child.size)`, recursively. -/
def sizeInvB : Node → Bool
  | .file _ _ _ => true
  | .dir _ _ sz self subs _ => (sz == self + sizeSum subs) && allInvB subs
/-- All nodes of the list satisfy `sizeInvB`. -/
def allInvB : List Node → Bool
  | [] => true
  | c :: cs => sizeInvB c && allInvB cs
end

/-- The loop body of `merge` (lines 99-115): repeatedly move the larger head
onto the front of `result`; the C condition for taking from `a` is
`b == NULL || (a != NULL && a->size > b->size)`. -/
def mergeAux : List Node → List Node → List Node → List Node
  | [], [], acc => acc
  | a :: as, [], acc => mergeAux as [] (a :: acc)
  | [], b :: bs, acc => mergeAux [] bs (b :: acc)
  | a :: as, b :: bs, acc =>
    if a.size > b.size then mergeAux as (b :: bs) (a :: acc)
    else mergeAux (a :: as) bs (b :: acc)
termination_by a b _ => a.length + b.length

/-- The C `merge`: accumulate in reversed order, then `reverse(result)`. -/
def merge (a b : List Node) : List Node :=
  (mergeAux a b []).reverse

/-- Structural (non-accumulator) description of `merge`; proved equal to it in
`merge_eq_mergeRec` below.  On a tie (`a.size > b.size` false) the element of
the SECOND list is taken first. -/
def mergeRec : List Node → List Node → List Node
  | [], b => b
  | a, [] => a
  | a :: as, b :: bs =>
    if a.size > b.size then a :: mergeRec as (b :: bs)
    else b :: mergeRec (a :: as) bs
termination_by a b => a.length + b.length

/-- `do_merge_sort` (lines 117-134): split the first `n/2` elements off (the C
walks `middle` to the `n/2`-th cell and cuts the link) and merge the two
recursively sorted halves.  `n` is the caller-supplied length. -/
def do_merge_sort : List Node → Nat → List Node
  | files, 0 => files
  | files, 1 => files
  | files, n + 2 =>
    merge (do_merge_sort (files.take ((n + 2) / 2)) ((n + 2) / 2))
          (do_merge_sort (files.drop ((n + 2) / 2)) (n + 2 - (n + 2) / 2))
termination_by _ n => n
decreasing_by
  all_goals simp_wf
  all_goals omega

/-- `sorted_subdirs` (lines 136-147), as a function of the two mutable fields
of the directory: if `subdirs_sorted` is set, return the cached list; else
count the children and merge-sort, setting the flag.  Returns the new values
of `(subdirs, subdirs_sorted)`; the list returned to the caller is the first
component. -/
def sorted_subdirs (subs : List Node) (sorted : Bool) : List Node × Bool :=
  if sorted then (subs, sorted) else (do_merge_sort subs subs.length, true)

/-- Boolean check that adjacent sizes are non-increasing (descending order by
`size`), the postcondition of the sorter. -/
def sortedByDescB : List Node → Bool
  | [] => true
  | [_] => true
  | a :: b :: rest => decide (b.size ≤ a.size) && sortedByDescB (b :: rest)

/-- Abstract view of the filesystem seen by `build_tree`'s syscalls:
`statFail` = `lstat` fails with the given `errno`; `file` = a non-directory
entry with `ftype = (st_mode & S_IFMT) >> 12` and `st_size`; `dir` = a
directory with its own `st_size`, whether `opendir` succeeds, and the entries
`readdir` yields, in `readdir` order (excluding any order for `.` and `..`,
which `build_tree` skips by name). -/
inductive FS where
  | statFail (name : String) (errno : Nat)
  | file (name : String) (ftype : Nat) (size : Nat)
  | dir (name : String) (size : Nat) (listable : Bool) (entries : List FS)

/-- Entry name (`dirent->d_name`) of an `FS` entry. -/
def FS.name : FS → String
  | .statFail n _ => n
  | .file n _ _ => n
  | .dir n _ _ _ => n

/-- `concat_path` (lines 37-49): append `b` to `a`, inserting `/` unless `a`
already ends in one.  (The C reads `path_a[size_a - 1]`; paths passed in the
program are non-empty, the empty case is mapped to inserting a slash.) -/
def concat_path (a b : String) : String :=
  match a.data.getLast? with
  | some c => if c = '/' then a ++ b else a ++ "/" ++ b
  | none => a ++ "/" ++ b

mutual
/-- `build_tree` (lines 149-203).  `err(errno, "[WARNING] stat failed...")`
terminates the process with exit status `errno` (the `return NULL` after it is
unreachable), hence the `.error` result on ANY stat failure, root or not.
A non-listable directory gets `type |= DIRECTORY_UNLISTABLE` (so `ftype = 20`)
and no children; its `subdirs_sorted` is left uninitialised by the C and never
read before being written, modelled as `false`.  Children are prepended to
`subdirs` as in the C loop, and each child's size is added to the aggregate. -/
def build_tree (path : String) : FS → Except Nat Node
  | .statFail _ e => .error e
  | .file _ ft sz => .ok (.file path ft sz)
  | .dir _ sz false _ => .ok (.dir path 20 sz sz [] false)
  | .dir _ sz true entries =>
    match build_children path entries [] sz with
    | .error e => .error e
    | .ok (subs, tot) => .ok (.dir path 4 tot sz subs false)
/-- The `readdir` loop of `build_tree`: skip `.` and `..`, build each entry at
`concat_path path name`, prepend it to the accumulated `subdirs` and add its
size to the running aggregate.  A child whose build fails never returns (see
`build_tree`), so the `[WARNING]: cannot find file` branch is dead. -/
def build_children (path : String) :
    List FS → List Node → Nat → Except Nat (List Node × Nat)
  | [], acc, total => .ok (acc, total)
  | e :: es, acc, total =>
    if e.name = "." ∨ e.name = ".." then build_children path es acc total
    else
      match build_tree (concat_path path e.name) e with
      | .error er => .error er
      | .ok n => build_children path es (n :: acc) (total + n.size)
end

/-- Outcomes of the deletion syscalls, keyed by the node's stored path:
`none` = the call succeeds, `some e` = it fails and sets `errno = e`. -/
structure Oracle where
  unlink : String → Option Nat
  rmdir : String → Option Nat

/-- `update_size` (lines 293-301): clear `subdirs_sorted` and recompute
`size = self_size + Σ(child.size)`.  Identity on plain files (the C only ever
passes directories). -/
def update_size : Node → Node
  | .dir name ft _ self subs _ => .dir name ft (self + sizeSum subs) self subs false
  | f => f

mutual
/-- `remove_file_internal` with `remove_parent = false` (lines 303-337).
The C dispatches on `f->type & (S_IFDIR >> 12)`; directory nodes always have
that bit (`ftype` 4 or 20).  (A plain file whose `ftype` has bit 2 set — a
block device or socket — would be miscast to `struct directory` by the C,
undefined behaviour outside every claim; the model takes the file branch for
the `file` constructor.)  For a file: `unlink`, falling back to `rmdir`; if
both fail, `err(errno, ...)` TERMINATES the process with the `rmdir` errno
(the `result = false` after it is dead code).  For a directory: process every
child (`remove_children`), keep the ones whose removal failed; if all were
removed, `rmdir` the directory itself (failure again terminates via `err`);
in the surviving paths `update_size` runs on the directory.  Returns the
updated node and the `result` flag. -/
def remove_file_internal (o : Oracle) : Node → Except Nat (Node × Bool)
  | .file name ft sz =>
    match o.unlink name with
    | none => .ok (.file name ft sz, true)
    | some _ =>
      match o.rmdir name with
      | none => .ok (.file name ft sz, true)
      | some e => .error e
  | .dir name ft sz self subs so =>
    match remove_children o subs with
    | .error e => .error e
    | .ok (kept, res) =>
      if res then
        match o.rmdir name with
        | none => .ok (update_size (.dir name ft sz self kept so), true)
        | some e => .error e
      else .ok (update_size (.dir name ft sz self kept so), false)
/-- The child loop of `remove_file_internal` (lines 308-318): each child is
removed recursively; on success it is spliced out of the list and freed, on
failure it stays and `result` becomes false. -/
def remove_children (o : Oracle) : List Node → Except Nat (List Node × Bool)
  | [] => .ok ([], true)
  | c :: cs =>
    match remove_file_internal o c with
    | .error e => .error e
    | .ok (c', res) =>
      match remove_children o cs with
      | .error e => .error e
      | .ok (kept, resAll) =>
        if res then .ok (kept, resAll) else .ok (c' :: kept, false)
end

/-- `remove_file` (lines 365-368) applied to the node at path `p` of the root
tree `t` (the path replaces the `f->parent` back-pointers).  The target is
removed by `remove_file_internal`; with `remove_parent = true` a successful
removal splices the node out of its parent's `subdirs` and frees it, and then
every ancestor up to the root is passed through `update_size` (the recursion
unwinding performs the bottom-up `while (d) update_size(d)` walk).  The result
is `none` when the whole tree (the root) was removed.  On an invalid path
(never produced by the navigation) the tree is returned unchanged. -/
def remove_file_at (o : Oracle) : Node → List Nat → Except Nat (Option Node × Bool)
  | t, [] =>
    match remove_file_internal o t with
    | .error e => .error e
    | .ok (t', res) => .ok (if res then none else some t', res)
  | t, i :: rest =>
    match t with
    | .file name ft sz => .ok (some (.file name ft sz), true)
    | .dir name ft sz self subs so =>
      match subs[i]? with
      | none => .ok (some (.dir name ft sz self subs so), true)
      | some c =>
        match remove_file_at o c rest with
        | .error e => .error e
        | .ok (sub, res) =>
          let subs' := match sub with
            | none => subs.eraseIdx i
            | some c' => subs.set i c'
          .ok (some (update_size (.dir name ft sz self subs' so)), res)

/-- Node reached from `t` by following the child indices in `p`. -/
def nodeAt : Node → List Nat → Option Node
  | t, [] => some t
  | .file _ _ _, _ :: _ => none
  | .dir _ _ _ _ subs _, i :: rest =>
    match subs[i]? with
    | none => none
    | some c => nodeAt c rest

/-- Children list of the directory at path `p` of `t`, if any. -/
def subdirsAt (t : Node) (p : List Nat) : Option (List Node) :=
  match nodeAt t p with
  | some (.dir _ _ _ _ subs _) => some subs
  | _ => none

/-- The scan of `get_file_name` (lines 51-66): walk the characters keeping a
pointer to the start of the last path segment (`result` is moved to any
non-`/` character that follows a `/`).  The state is (remaining characters,
current `result` suffix, `prev` flag). -/
def get_file_name_go : List Char → List Char → Bool → List Char
  | [], res, _ => res
  | c :: cs, res, prev =>
    if c = '/' then get_file_name_go cs res true
    else get_file_name_go cs (if prev then c :: cs else res) false

/-- `get_file_name`: suffix of `path` starting at the last path segment. -/
def get_file_name (s : String) : String :=
  String.mk (get_file_name_go s.data s.data false)

/-- The child scan of `next_entity` (lines 282-287): first child whose
`get_file_name(name)` equals `s` wins; the result is its path (`p` extended
with its index). -/
def find_child (p : List Nat) (s : String) : List Node → Nat → Option (List Nat)
  | [], _ => none
  | c :: cs, i =>
    if get_file_name c.name = s then some (p ++ [i]) else find_child p s cs (i + 1)

/-- `next_entity` (lines 276-291), with the current node given as path `p` in
tree `t`.  For `".."` the C returns `&f->parent->file`; `struct file` is the
first member of `struct directory`, so when `f` is the root (`parent == NULL`)
this address computation yields the null pointer without dereferencing
anything — embedded as `none`.  Otherwise only a node whose `type` is exactly
`S_IFDIR >> 12 = 4` (a listable directory) has its children scanned; anything
else returns `NULL`. -/
def next_entity (t : Node) (p : List Nat) (s : String) : Option (List Nat) :=
  if s = ".." then
    match p with
    | [] => none
    | _ :: _ => some p.dropLast
  else
    match nodeAt t p with
    | some (.dir _ ft _ _ subs _) => if ft = 4 then find_child p s subs 0 else none
    | _ => none

/-- The navigation branch of `main`'s loop (lines 466-473): resolve the name
against the cursor; `NULL` means `[ERROR] no such file` is printed and the
cursor keeps its value, otherwise the cursor moves.  Returns the new cursor
path and whether the error message was printed. -/
def nav_step (t : Node) (p : List Nat) (s : String) : List Nat × Bool :=
  match next_entity t p s with
  | none => (p, true)
  | some q => (q, false)

/-- C `isspace` on the default locale's whitespace set. -/
def c_isspace (c : Char) : Bool :=
  c = ' ' || c = '\t' || c = '\n' || c = Char.ofNat 11 || c = Char.ofNat 12 || c = '\r'

/-- `is_empty_line` (lines 370-381): true for every all-whitespace string; the
C also returns true for a `NULL` pointer (the `strsep` leftover of a bare
`/rm`), which the model writes as `""`. -/
def is_empty_line (s : String) : Bool :=
  s.data.all c_isspace

/-- How a `process_rm` invocation can abort the process: `crash` is the
segmentation fault from dereferencing a null `to_remove`, `exitc e` is an
`err`-triggered `exit(e)` inside the deletion engine. -/
inductive ProcExit where
  | crash
  | exitc (code : Nat)

/-- `process_rm` (lines 383-397), with the cursor given as path `p` in tree
`t` and `line` the raw remainder after `strsep` stripped the `/rm` token.
The target is the cursor for a blank `line`, else `next_entity`'s result —
which may be `NULL`, in which case `to_remove->parent` DEREFERENCES the null
pointer (`.error .crash`).  `parent` is computed BEFORE `remove_file` runs and
is returned unconditionally; it is the null pointer (`none`) exactly when the
target is the root, and then the `[INFO]` message is printed.  The result
carries (returned parent path, tree after removal, stderr messages). -/
def process_rm (o : Oracle) (t : Node) (p : List Nat) (line : String) :
    Except ProcExit (Option (List Nat) × Option Node × List String) :=
  match (if is_empty_line line then some p else next_entity t p line) with
  | none => .error .crash
  | some tp =>
    let parent : Option (List Nat) := if tp = [] then none else some tp.dropLast
    match remove_file_at o t tp with
    | .error e => .error (.exitc e)
    | .ok (t', _) =>
      .ok (parent, t',
           if parent = none then ["[INFO] removed root directory; exiting"] else [])

/-- Lines 459-464 of `main`: a `NULL` cursor returned by `process_command`
ends the session with `exit_code = 0`; otherwise the loop continues. -/
def rm_exit : Option (List Nat) → Option Nat
  | none => some 0
  | some _ => none

/-- The startup part of `main` (lines 424-449), up to the interactive loop:
`nargs` is `argc - 1`; two or more arguments print usage and return 1;
a failing `open(".")` calls `err(errno, ...)`, terminating with `errno` (the
`exit_code = 1` after it is dead); then `build_tree` runs on the base path —
its own `err` likewise ends the process with the stat `errno` (making the
`[ERROR] failed to build a tree` / `exit_code = 1` branch dead).  `inl` is the
process exit code, `inr` the tree entering the loop. -/
def main_startup (nargs : Nat) (open_cwd : Option Nat) (base_path : String)
    (fs : FS) : Sum Nat Node :=
  if 2 ≤ nargs then .inl 1
  else
    match open_cwd with
    | some e => .inl e
    | none =>
      match build_tree base_path fs with
      | .error e => .inl e
      | .ok n => .inr n

/-- Descending-size order on nodes, the key of the children sort. -/
def descOrder (u v : Node) : Prop := v.size ≤ u.size

/-- Concrete filesystem for evaluation: directory `r` (own size 2) holding one
regular file `a` of 3 bytes. -/
def fsDemo : FS := FS.dir "r" 2 true [FS.file "a" 8 3]

/-- The tree `build_tree "/r" fsDemo` produces. -/
def treeDemo : Node := Node.dir "/r" 4 5 2 [Node.file "/r/a" 8 3] false

/-- Oracle on which every `unlink`/`rmdir` succeeds. -/
def oracleOk : Oracle := ⟨fun _ => none, fun _ => none⟩

/-- Oracle on which every `unlink`/`rmdir` fails with `errno = 13` (EACCES). -/
def oracleFailAll : Oracle := ⟨fun _ => some 13, fun _ => some 13⟩

/-- Oracle failing only on the path `/d/bad`, with `errno = 13`. -/
def oracleBad : Oracle :=
  ⟨fun n => if n = "/d/bad" then some 13 else none,
   fun n => if n = "/d/bad" then some 13 else none⟩

/-- Concrete directory `/d` (own size 2) with children `x` (3 bytes) and
`bad` (4 bytes); `bad` is the child `oracleBad` refuses to delete. -/
def dirDemo : Node :=
  Node.dir "/d" 4 9 2 [Node.file "/d/x" 8 3, Node.file "/d/bad" 8 4] false

/-- Concrete childless directory used as a cursor. -/
def dirNoChild : Node := Node.dir "/d" 4 10 10 [] false

/-- Concrete unsorted children list (sizes 1, 5, 3). -/
def subsDemo : List Node :=
  [Node.file "/w/a" 8 1, Node.file "/w/b" 8 5, Node.file "/w/c" 8 3]

/-- Concrete root that is a plain file. -/
def rootFileDemo : Node := Node.file "/r" 8 5

/-
Theorems.
-/

/-- `mergeRec` on an empty second list returns the first unchanged. -/
theorem mergeRec_nil_right : ∀ a : List Node, mergeRec a [] = a := by
  intro a
  cases a <;> simp [mergeRec]

/-- The accumulator loop of `merge` computes the reversed structural merge
prefixed to the accumulator. -/
theorem mergeAux_eq :
    ∀ (a b acc : List Node), mergeAux a b acc = (mergeRec a b).reverse ++ acc := by
  intro a
  induction a with
  | nil =>
    intro b
    induction b with
    | nil => intro acc; simp [mergeAux, mergeRec]
    | cons y ys ihy => intro acc; simp [mergeAux, mergeRec, ihy]
  | cons x xs ihx =>
    intro b
    induction b with
    | nil =>
      intro acc
      simp [mergeAux, mergeRec_nil_right, ihx]
    | cons y ys ihy =>
      intro acc
      by_cases h : x.size > y.size
      · simp [mergeAux, mergeRec, h, ihx]
      · simp [mergeAux, mergeRec, h, ihy]

/-- The C `merge` (accumulate and reverse) equals the structural merge. -/
theorem merge_eq_mergeRec : ∀ a b : List Node, merge a b = mergeRec a b := by
  intro a b
  simp [merge, mergeAux_eq]

/-- Merging permutes the concatenation of its arguments. -/
theorem mergeRec_perm : ∀ a b : List Node, List.Perm (mergeRec a b) (a ++ b) := by
  intro a
  induction a with
  | nil => intro b; cases b <;> simp [mergeRec]
  | cons x xs ihx =>
    intro b
    induction b with
    | nil => simp [mergeRec_nil_right]
    | cons y ys ihy =>
      simp only [mergeRec]
      split
      · exact (ihx (y :: ys)).cons x
      · exact (ihy.cons y).trans List.perm_middle.symm

/-- Merging preserves the element count. -/
theorem mergeRec_length :
    ∀ a b : List Node, (mergeRec a b).length = a.length + b.length := by
  intro a b
  simpa using (mergeRec_perm a b).length_eq

/-- Merging two lists sorted by descending size yields a list sorted by
descending size. -/
theorem mergeRec_pairwise :
    ∀ a b : List Node, a.Pairwise descOrder → b.Pairwise descOrder →
      (mergeRec a b).Pairwise descOrder := by
  intro a
  induction a with
  | nil =>
    intro b ha hb
    cases b with
    | nil => simp [mergeRec]
    | cons y ys => simpa [mergeRec] using hb
  | cons x xs ihx =>
    intro b
    induction b with
    | nil =>
      intro ha hb
      simpa [mergeRec_nil_right] using ha
    | cons y ys ihy =>
      intro ha hb
      rcases List.pairwise_cons.mp ha with ⟨hax, hxs⟩
      rcases List.pairwise_cons.mp hb with ⟨hby, hys⟩
      simp only [mergeRec]
      split
      · rename_i h
        rw [List.pairwise_cons]
        refine ⟨?_, ihx (y :: ys) hxs hb⟩
        intro z hz
        rcases List.mem_append.mp ((mergeRec_perm xs (y :: ys)).mem_iff.mp hz) with hz1 | hz2
        · exact hax z hz1
        · rcases List.mem_cons.mp hz2 with hz3 | hz4
          · subst hz3; unfold descOrder; omega
          · have h1 : z.size ≤ y.size := hby z hz4
            unfold descOrder at *; omega
      · rename_i h
        rw [List.pairwise_cons]
        refine ⟨?_, ihy ha hys⟩
        intro z hz
        rcases List.mem_append.mp ((mergeRec_perm (x :: xs) ys).mem_iff.mp hz) with hz1 | hz2
        · rcases List.mem_cons.mp hz1 with hz3 | hz4
          · subst hz3; unfold descOrder; omega
          · have h1 : z.size ≤ x.size := hax z hz4
            unfold descOrder at *; omega
        · exact hby z hz2


/-- A list that is pairwise descending passes the adjacent-pairs check. -/
theorem sortedB_of_pairwise :
    ∀ l : List Node, l.Pairwise descOrder → sortedByDescB l = true := by
  intro l
  induction l with
  | nil => intro _; rfl
  | cons a l ih =>
    intro h
    rcases List.pairwise_cons.mp h with ⟨ha, hl⟩
    cases l with
    | nil => rfl
    | cons b rest =>
      have hb : b.size ≤ a.size := ha b (List.mem_cons_self b rest)
      simp [sortedByDescB, hb, ih hl]

/-- `do_merge_sort`, called with the list's true length, returns a list that
is pairwise descending by size. -/
theorem do_merge_sort_pairwise :
    ∀ (n : Nat) (l : List Node), l.length = n →
      (do_merge_sort l n).Pairwise descOrder := by
  intro n
  induction n using Nat.strong_induction_on with
  | _ n ih =>
    intro l hl
    match n with
    | 0 =>
      have : l = [] := List.length_eq_zero.mp hl
      subst this
      simp [do_merge_sort]
    | 1 =>
      rcases List.length_eq_one.mp hl with ⟨x, hx⟩
      subst hx
      simp [do_merge_sort]
    | (m + 2) =>
      rw [do_merge_sort, merge_eq_mergeRec]
      have h1 : (l.take ((m + 2) / 2)).length = (m + 2) / 2 := by
        rw [List.length_take, hl]; omega
      have h2 : (l.drop ((m + 2) / 2)).length = (m + 2) - (m + 2) / 2 := by
        rw [List.length_drop, hl]
      exact mergeRec_pairwise _ _ (ih _ (by omega) _ h1) (ih _ (by omega) _ h2)

/-- `do_merge_sort`, called with the list's true length, preserves the
element count. -/
theorem do_merge_sort_length :
    ∀ (n : Nat) (l : List Node), l.length = n → (do_merge_sort l n).length = n := by
  intro n
  induction n using Nat.strong_induction_on with
  | _ n ih =>
    intro l hl
    match n with
    | 0 =>
      have : l = [] := List.length_eq_zero.mp hl
      subst this
      simp [do_merge_sort]
    | 1 =>
      rcases List.length_eq_one.mp hl with ⟨x, hx⟩
      subst hx
      simp [do_merge_sort]
    | (m + 2) =>
      rw [do_merge_sort, merge_eq_mergeRec, mergeRec_length]
      have h1 : (l.take ((m + 2) / 2)).length = (m + 2) / 2 := by
        rw [List.length_take, hl]; omega
      have h2 : (l.drop ((m + 2) / 2)).length = (m + 2) - (m + 2) / 2 := by
        rw [List.length_drop, hl]
      rw [ih _ (by omega) _ h1, ih _ (by omega) _ h2]
      omega

/-- C5: after `sorted_subdirs` returns, adjacent children sizes are
non-increasing, the number of children is preserved, and a second call with no
intervening mutation returns the identical pair (idempotence via the
`subdirs_sorted` cache).  The hypothesis is the program invariant of spec
section 3 that a set `subdirs_sorted` flag only ever describes an actually
sorted list (the flag is set only by the sorter itself and cleared by
`update_size` on every mutation). -/
theorem claim5_sorted_subdirs_spec :
    ∀ (subs : List Node) (sorted : Bool),
      (sorted = true → sortedByDescB subs = true) →
      sortedByDescB (sorted_subdirs subs sorted).1 = true ∧
      (sorted_subdirs subs sorted).1.length = subs.length ∧
      sorted_subdirs (sorted_subdirs subs sorted).1 (sorted_subdirs subs sorted).2 =
        sorted_subdirs subs sorted := by
  intro subs sorted h
  cases sorted with
  | true => exact ⟨h rfl, rfl, rfl⟩
  | false =>
    have hs := do_merge_sort_pairwise subs.length subs rfl
    have hl := do_merge_sort_length subs.length subs rfl
    exact ⟨sortedB_of_pairwise _ hs, hl, rfl⟩

/-- Witness for C5 on the concrete dirty children list `subsDemo`. -/
theorem claim5_sorted_subdirs_spec_witness :
    sortedByDescB (sorted_subdirs subsDemo false).1 = true ∧
    (sorted_subdirs subsDemo false).1.length = subsDemo.length ∧
    sorted_subdirs (sorted_subdirs subsDemo false).1 (sorted_subdirs subsDemo false).2 =
      sorted_subdirs subsDemo false :=
  claim5_sorted_subdirs_spec subsDemo false (fun h => Bool.noConfusion h)

/-- C6 counterexample: the sort is NOT stable.  Two equal-size children
`/r/a` before `/r/b` come out as `/r/b` before `/r/a`: in `merge`, the C
condition `a->size > b->size` is false on a tie, so the element of the second
half is taken first and the pre-sort relative order is reversed. -/
theorem claim6_stability_cex :
    (Node.file "/r/a" 8 5).size = (Node.file "/r/b" 8 5).size ∧
    (do_merge_sort [Node.file "/r/a" 8 5, Node.file "/r/b" 8 5] 2).map Node.name
      = ["/r/b", "/r/a"] ∧
    (["/r/b", "/r/a"] : List String) ≠ ["/r/a", "/r/b"] := by
  refine ⟨rfl, ?_, by decide⟩
  simp [do_merge_sort, merge, mergeAux, Node.size, Node.name]

/-- C6 amended: the children sort is a merge sort keyed by descending size,
but ties are resolved in favour of the second (later) half rather than input
order; in particular sorting any two equal-size children swaps them. -/
theorem claim6_tie_order_reversed :
    ∀ x y : Node, x.size = y.size → do_merge_sort [x, y] 2 = [y, x] := by
  intro x y h
  have hng : ¬ x.size > y.size := by omega
  simp [do_merge_sort, merge, mergeAux, hng]

/-- Witness for the amended C6 on two concrete equal-size files. -/
theorem claim6_tie_order_reversed_witness :
    do_merge_sort [Node.file "/t/a" 8 7, Node.file "/t/b" 8 7] 2
      = [Node.file "/t/b" 8 7, Node.file "/t/a" 8 7] :=
  claim6_tie_order_reversed (Node.file "/t/a" 8 7) (Node.file "/t/b" 8 7) rfl

/-- C7: resolving `".."` when the cursor is the root does not crash:
`next_entity` computes `&f->parent->file` which, with `parent == NULL`, is the
null pointer (offset-0 address computation, no dereference), so the main loop
prints `[ERROR] no such file` and the cursor is unchanged. -/
theorem claim7_dotdot_at_root_safe :
    ∀ t : Node, next_entity t [] ".." = none ∧ nav_step t [] ".." = ([], true) := by
  intro t
  exact ⟨rfl, rfl⟩

/-- Size sums distribute over append. -/
theorem sizeSum_append : ∀ a b : List Node, sizeSum (a ++ b) = sizeSum a + sizeSum b := by
  intro a b
  induction a with
  | nil => simp [sizeSum]
  | cons c cs ih => simp [sizeSum, ih]; omega

/-- The invariant check distributes over append. -/
theorem allInvB_append :
    ∀ a b : List Node, allInvB (a ++ b) = (allInvB a && allInvB b) := by
  intro a b
  induction a with
  | nil => simp [allInvB]
  | cons c cs ih => simp [allInvB, ih, Bool.and_assoc]

/-- Dropping an element keeps the invariant of the rest. -/
theorem allInvB_eraseIdx :
    ∀ (l : List Node) (i : Nat), allInvB l = true → allInvB (l.eraseIdx i) = true := by
  intro l
  induction l with
  | nil => intro i _; simp [List.eraseIdx, allInvB]
  | cons c cs ih =>
    intro i h
    simp [allInvB] at h
    cases i with
    | zero => simpa [List.eraseIdx] using h.2
    | succ j => simp [List.eraseIdx, allInvB, h.1, ih j h.2]

/-- Replacing an element with an invariant-satisfying one keeps the list
invariant. -/
theorem allInvB_set :
    ∀ (l : List Node) (i : Nat) (c' : Node), allInvB l = true → sizeInvB c' = true →
      allInvB (l.set i c') = true := by
  intro l
  induction l with
  | nil => intro i c' h _; simpa [List.set] using h
  | cons c cs ih =>
    intro i c' h hc'
    simp [allInvB] at h
    cases i with
    | zero => simp [List.set, allInvB, hc', h.2]
    | succ j => simp [List.set, allInvB, h.1, ih j c' h.2 hc']

/-- Every indexed element of an invariant-satisfying list satisfies the
invariant. -/
theorem allInvB_get :
    ∀ (l : List Node) (i : Nat) (c : Node), allInvB l = true → l[i]? = some c →
      sizeInvB c = true := by
  intro l
  induction l with
  | nil => intro i c _ hg; simp at hg
  | cons x xs ih =>
    intro i c h hg
    simp [allInvB] at h
    cases i with
    | zero => simp at hg; subst hg; exact h.1
    | succ j => exact ih j c h.2 (by simpa using hg)

/-- Erasing the element at a valid index removes exactly its size from the
sum. -/
theorem sizeSum_eraseIdx :
    ∀ (l : List Node) (i : Nat) (c : Node), l[i]? = some c →
      sizeSum (l.eraseIdx i) + c.size = sizeSum l := by
  intro l
  induction l with
  | nil => intro i c hg; simp at hg
  | cons x xs ih =>
    intro i c hg
    cases i with
    | zero =>
      simp at hg
      subst hg
      simp [List.eraseIdx, sizeSum]
      omega
    | succ j =>
      have := ih j c (by simpa using hg)
      simp [List.eraseIdx, sizeSum]
      omega

/-- Replacing the element at a valid index swaps exactly its size in the
sum. -/
theorem sizeSum_set :
    ∀ (l : List Node) (i : Nat) (c c' : Node), l[i]? = some c →
      sizeSum (l.set i c') + c.size = sizeSum l + c'.size := by
  intro l
  induction l with
  | nil => intro i c c' hg; simp at hg
  | cons x xs ih =>
    intro i c c' hg
    cases i with
    | zero =>
      simp at hg
      subst hg
      simp [List.set, sizeSum]
      omega
    | succ j =>
      have := ih j c c' (by simpa using hg)
      simp [List.set, sizeSum]
      omega

/-- Reading back a just-written index. -/
theorem getIdx_set_self :
    ∀ (l : List Node) (i : Nat) (c c' : Node), l[i]? = some c →
      (l.set i c')[i]? = some c' := by
  intro l
  induction l with
  | nil => intro i c c' hg; simp at hg
  | cons x xs ih =>
    intro i c c' hg
    cases i with
    | zero => simp [List.set]
    | succ j => simpa [List.set] using ih j c c' (by simpa using hg)

/-- Specification of the `readdir` loop: it returns the accumulated list
extended (at the front) with the newly built, invariant-satisfying children,
and adds exactly their sizes to the running total. -/
theorem build_children_spec :
    ∀ (path : String) (es : List FS) (acc : List Node) (total : Nat)
      (subs : List Node) (tot : Nat),
      (∀ e ∈ es, ∀ (q : String) (n : Node), build_tree q e = .ok n → sizeInvB n = true) →
      build_children path es acc total = .ok (subs, tot) →
      ∃ new, subs = new ++ acc ∧ tot = total + sizeSum new ∧ allInvB new = true := by
  intro path es
  induction es with
  | nil =>
    intro acc total subs tot _ hb
    simp [build_children] at hb
    exact ⟨[], by simp [hb.1.symm], by simp [sizeSum, hb.2.symm], rfl⟩
  | cons e es ih =>
    intro acc total subs tot hinv hb
    by_cases hname : e.name = "." ∨ e.name = ".."
    · rw [build_children, if_pos hname] at hb
      exact ih acc total subs tot (fun x hx => hinv x (List.mem_cons_of_mem e hx)) hb
    · rw [build_children, if_neg hname] at hb
      cases hbt : build_tree (concat_path path e.name) e with
      | error er => rw [hbt] at hb; exact absurd hb (by simp)
      | ok n =>
        rw [hbt] at hb
        obtain ⟨new, h1, h2, h3⟩ :=
          ih (n :: acc) (total + n.size) subs tot
            (fun x hx => hinv x (List.mem_cons_of_mem e hx)) hb
        refine ⟨new ++ [n], ?_, ?_, ?_⟩
        · simp [h1]
        · rw [h2, sizeSum_append]; simp [sizeSum]; omega
        · rw [allInvB_append, h3]
          have hn : sizeInvB n = true := hinv e (List.mem_cons_self e es) _ n hbt
          simp [allInvB, hn]

/-- Bounded-size version of the build invariant, for the nested induction
through directory entry lists. -/
theorem build_tree_inv_aux :
    ∀ (k : Nat) (fs : FS), sizeOf fs ≤ k →
      ∀ (path : String) (n : Node), build_tree path fs = .ok n → sizeInvB n = true := by
  intro k
  induction k with
  | zero =>
    intro fs h
    cases fs <;> simp at h
  | succ k ih =>
    intro fs hk path n hb
    cases fs with
    | statFail nm e => simp [build_tree] at hb
    | file nm ft sz =>
      simp [build_tree] at hb
      subst hb
      rfl
    | dir nm sz listable es =>
      cases listable with
      | false =>
        simp [build_tree] at hb
        subst hb
        simp [sizeInvB, sizeSum, allInvB]
      | true =>
        rw [build_tree] at hb
        cases hbc : build_children path es [] sz with
        | error e => rw [hbc] at hb; exact absurd hb (by simp)
        | ok pr =>
          obtain ⟨subs, tot⟩ := pr
          rw [hbc] at hb
          simp at hb
          subst hb
          have hes : ∀ e ∈ es, ∀ (q : String) (m : Node),
              build_tree q e = .ok m → sizeInvB m = true := by
            intro e he q m hq
            have h1 : sizeOf e < sizeOf es := List.sizeOf_lt_of_mem he
            have h2 : sizeOf es < sizeOf (FS.dir nm sz true es) := by
              simp
            exact ih e (by omega) q m hq
          obtain ⟨new, h1, h2, h3⟩ := build_children_spec path es [] sz subs tot hes hbc
          simp at h1
          subst h1
          simp [sizeInvB, h2, h3]

/-- Any tree returned by `build_tree` satisfies the size invariant. -/
theorem build_tree_inv :
    ∀ (fs : FS) (path : String) (n : Node),
      build_tree path fs = .ok n → sizeInvB n = true :=
  fun fs => build_tree_inv_aux (sizeOf fs) fs (Nat.le_refl _)

/-- The child-removal loop keeps the invariant of every kept child. -/
theorem remove_children_inv :
    ∀ (o : Oracle) (cs : List Node),
      (∀ c ∈ cs, ∀ (c' : Node) (b : Bool), remove_file_internal o c = .ok (c', b) →
        sizeInvB c = true → sizeInvB c' = true) →
      ∀ (kept : List Node) (b : Bool), remove_children o cs = .ok (kept, b) →
        allInvB cs = true → allInvB kept = true := by
  intro o cs
  induction cs with
  | nil =>
    intro _ kept b hr _
    simp [remove_children] at hr
    obtain ⟨h1, h2⟩ := hr
    subst h1
    rfl
  | cons c cs ih =>
    intro hel kept b hr hcs
    rw [remove_children] at hr
    cases hc : remove_file_internal o c with
    | error e => simp [hc] at hr
    | ok pr =>
      obtain ⟨c', res⟩ := pr
      simp only [hc] at hr
      cases hcs2 : remove_children o cs with
      | error e => simp [hcs2] at hr
      | ok pr2 =>
        obtain ⟨kept', resAll⟩ := pr2
        simp only [hcs2] at hr
        simp [allInvB] at hcs
        have hkept' : allInvB kept' = true :=
          ih (fun x hx => hel x (List.mem_cons_of_mem c hx)) kept' resAll hcs2 hcs.2
        cases res with
        | true =>
          simp at hr
          obtain ⟨h1, h2⟩ := hr
          subst h1
          exact hkept'
        | false =>
          simp at hr
          obtain ⟨h1, h2⟩ := hr
          subst h1
          have hc' : sizeInvB c' = true :=
            hel c (List.mem_cons_self c cs) c' false hc hcs.1
          simp [allInvB, hc', hkept']

/-- Bounded-size version: `remove_file_internal` preserves the size
invariant on every surviving node (its `update_size` recomputes the aggregate
from the kept children). -/
theorem remove_file_internal_inv_aux :
    ∀ (k : Nat) (f : Node), sizeOf f ≤ k →
      ∀ (o : Oracle) (f' : Node) (b : Bool), remove_file_internal o f = .ok (f', b) →
        sizeInvB f = true → sizeInvB f' = true := by
  intro k
  induction k with
  | zero =>
    intro f h
    cases f <;> simp at h
  | succ k ih =>
    intro f hk o f' b hr hf
    cases f with
    | file nm ft sz =>
      rw [remove_file_internal] at hr
      cases hu : o.unlink nm with
      | none =>
        simp [hu] at hr
        obtain ⟨h1, h2⟩ := hr
        subst h1
        rfl
      | some e1 =>
        cases hd : o.rmdir nm with
        | none =>
          simp [hu, hd] at hr
          obtain ⟨h1, h2⟩ := hr
          subst h1
          rfl
        | some e2 => simp [hu, hd] at hr
    | dir nm ft sz self subs so =>
      rw [remove_file_internal] at hr
      cases hrc : remove_children o subs with
      | error e => simp [hrc] at hr
      | ok pr =>
        obtain ⟨kept, res⟩ := pr
        simp only [hrc] at hr
        simp [sizeInvB] at hf
        have hel : ∀ c ∈ subs, ∀ (c' : Node) (b : Bool),
            remove_file_internal o c = .ok (c', b) → sizeInvB c = true →
              sizeInvB c' = true := by
          intro c hcmem
          have h1 : sizeOf c < sizeOf subs := List.sizeOf_lt_of_mem hcmem
          have h2 : sizeOf subs < sizeOf (Node.dir nm ft sz self subs so) := by
            simp
            omega
          exact ih c (by omega) o
        have hkept : allInvB kept = true :=
          remove_children_inv o subs hel kept res hrc hf.2
        cases res with
        | true =>
          cases hrd : o.rmdir nm with
          | none =>
            simp [hrd] at hr
            obtain ⟨h1, h2⟩ := hr
            subst h1
            simp [update_size, sizeInvB, hkept]
          | some e => simp [hrd] at hr
        | false =>
          simp at hr
          obtain ⟨h1, h2⟩ := hr
          subst h1
          simp [update_size, sizeInvB, hkept]

/-- `remove_file_internal` preserves the size invariant. -/
theorem remove_file_internal_inv :
    ∀ (o : Oracle) (f f' : Node) (b : Bool),
      remove_file_internal o f = .ok (f', b) → sizeInvB f = true →
        sizeInvB f' = true :=
  fun o f => remove_file_internal_inv_aux (sizeOf f) f (Nat.le_refl _) o

/-- A completed `remove_file` call (the target addressed by path `p`) leaves
every directory of the resulting tree satisfying the size invariant: the
target's subtree by `remove_file_internal`'s own `update_size`, and every
ancestor by the `update_size` walk after the unlink. -/
theorem remove_file_at_inv :
    ∀ (p : List Nat) (o : Oracle) (t t' : Node) (b : Bool),
      sizeInvB t = true → remove_file_at o t p = .ok (some t', b) →
        sizeInvB t' = true := by
  intro p
  induction p with
  | nil =>
    intro o t t' b ht hr
    rw [remove_file_at] at hr
    cases hri : remove_file_internal o t with
    | error e => simp [hri] at hr
    | ok pr =>
      obtain ⟨t'', res⟩ := pr
      simp only [hri] at hr
      cases res with
      | true => simp at hr
      | false =>
        simp at hr
        obtain ⟨h1, h2⟩ := hr
        subst h1
        exact remove_file_internal_inv o t t'' false hri ht
  | cons i rest ih =>
    intro o t t' b ht hr
    cases t with
    | file nm ft sz =>
      simp [remove_file_at] at hr
      obtain ⟨h1, h2⟩ := hr
      subst h1
      rfl
    | dir nm ft sz self subs so =>
      rw [remove_file_at] at hr
      cases hg : subs[i]? with
      | none =>
        simp [hg] at hr
        obtain ⟨h1, h2⟩ := hr
        subst h1
        exact ht
      | some c =>
        simp only [hg] at hr
        cases hrc : remove_file_at o c rest with
        | error e => simp [hrc] at hr
        | ok pr =>
          obtain ⟨sub, res⟩ := pr
          simp only [hrc] at hr
          simp [sizeInvB] at ht
          have hc : sizeInvB c = true := allInvB_get subs i c ht.2 hg
          cases sub with
          | none =>
            simp at hr
            obtain ⟨h1, h2⟩ := hr
            subst h1
            simp [update_size, sizeInvB, allInvB_eraseIdx subs i ht.2]
          | some c' =>
            have hc' : sizeInvB c' = true := ih o c c' res hc hrc
            simp at hr
            obtain ⟨h1, h2⟩ := hr
            subst h1
            simp [update_size, sizeInvB, allInvB_set subs i c' ht.2 hc']

/-- C1: the size-aggregation invariant `size == self_size + Σ(child.size)`
holds for every directory of the tree produced by the initial build, and for
every directory of the tree left by every completed deletion operation (a
deletion whose syscall failures abort the process leaves no "after" state; a
completed `remove_file` re-establishes the invariant through `update_size` on
the affected directory and on every ancestor). -/
theorem claim1_size_invariant :
    (∀ (path : String) (fs : FS) (n : Node),
       build_tree path fs = .ok n → sizeInvB n = true) ∧
    (∀ (o : Oracle) (t : Node) (p : List Nat) (t' : Node) (b : Bool),
       sizeInvB t = true → remove_file_at o t p = .ok (some t', b) →
         sizeInvB t' = true) :=
  ⟨fun path fs n h => build_tree_inv fs path n h,
   fun o t p t' b h1 h2 => remove_file_at_inv p o t t' b h1 h2⟩

/-- Witness for C1: the concrete build of `fsDemo` satisfies the invariant,
and so does the tree after removing its file child at path `[0]`. -/
theorem claim1_size_invariant_witness :
    sizeInvB treeDemo = true ∧ sizeInvB (Node.dir "/r" 4 2 2 [] false) = true :=
  ⟨claim1_size_invariant.1 "/r" fsDemo treeDemo rfl,
   claim1_size_invariant.2 oracleOk treeDemo [0] (Node.dir "/r" 4 2 2 [] false) true
     (by decide) rfl⟩

/-- Stepping into child `i` of a directory relocates `nodeAt`. -/
theorem nodeAt_cons :
    ∀ (nm : String) (ft sz self : Nat) (subs : List Node) (so : Bool)
      (i : Nat) (q : List Nat) (c : Node), subs[i]? = some c →
      nodeAt (Node.dir nm ft sz self subs so) (i :: q) = nodeAt c q := by
  intro nm ft sz self subs so i q c hg
  rw [nodeAt, hg]

/-- Stepping into child `i` of a directory relocates `subdirsAt`. -/
theorem subdirsAt_cons :
    ∀ (nm : String) (ft sz self : Nat) (subs : List Node) (so : Bool)
      (i : Nat) (q : List Nat) (c : Node), subs[i]? = some c →
      subdirsAt (Node.dir nm ft sz self subs so) (i :: q) = subdirsAt c q := by
  intro nm ft sz self subs so i q c hg
  unfold subdirsAt
  rw [nodeAt_cons nm ft sz self subs so i q c hg]

/-- C8: removing a leaf regular file whose `unlink` succeeds removes it from
its parent's children and decreases the size of the parent and of every
strict ancestor (every strict prefix of the target path) by exactly the
file's size, while leaving every node that is not an ancestor unchanged: at
every level the ancestor's children list is the old one with only the
on-path entry erased (at the parent) or replaced (above it), so every
off-path sibling subtree is literally identical. -/
theorem claim8_leaf_removal_sizes :
    ∀ (p : List Nat) (o : Oracle) (t : Node) (fname : String) (ft fsz : Nat),
      nodeAt t p = some (Node.file fname ft fsz) →
      p ≠ [] →
      sizeInvB t = true →
      o.unlink fname = none →
      ∃ t', remove_file_at o t p = .ok (some t', true) ∧
        (∀ q, q <+: p → q ≠ p →
          ∃ n m, nodeAt t q = some n ∧ nodeAt t' q = some m ∧
            m.size + fsz = n.size ∧ m.name = n.name) ∧
        (∀ q j r, p = q ++ j :: r →
          ∃ cs cs', subdirsAt t q = some cs ∧ subdirsAt t' q = some cs' ∧
            (r = [] → cs' = cs.eraseIdx j) ∧
            (r ≠ [] → ∃ c c', cs[j]? = some c ∧ cs' = cs.set j c')) := by
  intro p
  induction p with
  | nil => intro o t fname ft fsz hnode hne hinv hun; exact absurd rfl hne
  | cons i rest ih =>
    intro o t fname ft fsz hnode hne hinv hun
    cases t with
    | file nm ft0 sz0 => simp [nodeAt] at hnode
    | dir nm ft0 sz self subs so =>
      rw [nodeAt] at hnode
      cases hg : subs[i]? with
      | none => rw [hg] at hnode; simp at hnode
      | some c =>
        rw [hg] at hnode
        simp only [] at hnode
        simp [sizeInvB] at hinv
        have hcinv : sizeInvB c = true := allInvB_get subs i c hinv.2 hg
        cases rest with
        | nil =>
          simp [nodeAt] at hnode
          subst hnode
          refine ⟨update_size (Node.dir nm ft0 sz self (subs.eraseIdx i) so), ?_, ?_, ?_⟩
          · rw [remove_file_at]
            simp [hg, remove_file_at, remove_file_internal, hun]
          · intro q hq hqne
            have hq0 : q = [] := by
              obtain ⟨s, hs⟩ := hq
              cases q with
              | nil => rfl
              | cons a as =>
                exfalso
                simp at hs
                obtain ⟨h1, h2⟩ := hs
                have h3 : as = [] := by
                  cases as with
                  | nil => rfl
                  | cons x xs => simp at h2
                subst h1 h3
                exact hqne rfl
            subst hq0
            refine ⟨_, _, rfl, rfl, ?_, ?_⟩
            · have hss := sizeSum_eraseIdx subs i _ hg
              simp [Node.size] at hss
              simp [update_size, Node.size]
              omega
            · simp [update_size, Node.name]
          · intro q j r hqjr
            cases q with
            | nil =>
              simp at hqjr
              obtain ⟨h1, h2⟩ := hqjr
              subst h1
              refine ⟨subs, subs.eraseIdx i, rfl, ?_, fun _ => rfl, fun hr => absurd h2 hr⟩
              simp [update_size, subdirsAt, nodeAt]
            | cons a as =>
              exfalso
              simp at hqjr
        | cons i2 rest2 =>
          obtain ⟨c', hceval, hc1, hc2⟩ :=
            ih o c fname ft fsz hnode (by simp) hcinv hun
          have hgs := getIdx_set_self subs i c c' hg
          refine ⟨update_size (Node.dir nm ft0 sz self (subs.set i c') so), ?_, ?_, ?_⟩
          · rw [remove_file_at]
            simp [hg, hceval]
          · intro q hq hqne
            cases q with
            | nil =>
              obtain ⟨n0, m0, hn0, hm0, hsz0, hnm0⟩ := hc1 [] List.nil_prefix (by simp)
              simp [nodeAt] at hn0 hm0
              refine ⟨_, _, rfl, rfl, ?_, ?_⟩
              · have hss := sizeSum_set subs i c c' hg
                simp [update_size, Node.size]
                rw [← hn0] at hsz0
                rw [← hm0] at hsz0
                omega
              · simp [update_size, Node.name]
            | cons a as =>
              rw [List.cons_prefix_cons] at hq
              obtain ⟨ha, has⟩ := hq
              subst ha
              have hasne : as ≠ i2 :: rest2 := by
                intro h
                exact hqne (by rw [h])
              obtain ⟨n0, m0, hn0, hm0, hsz0, hnm0⟩ := hc1 as has hasne
              refine ⟨n0, m0, ?_, ?_, hsz0, hnm0⟩
              · rw [nodeAt_cons _ _ _ _ _ _ _ _ _ hg]
                exact hn0
              · simp only [update_size]
                rw [nodeAt_cons _ _ _ _ _ _ _ _ _ hgs]
                exact hm0
          · intro q j r hqjr
            cases q with
            | nil =>
              simp at hqjr
              obtain ⟨h1, h2⟩ := hqjr
              subst h1
              refine ⟨subs, subs.set i c', rfl, ?_, ?_, ?_⟩
              · simp [update_size, subdirsAt, nodeAt]
              · intro hr0
                rw [← h2] at hr0
                simp at hr0
              · intro _
                exact ⟨c, c', hg, rfl⟩
            | cons a as =>
              simp at hqjr
              obtain ⟨h1, h2⟩ := hqjr
              subst h1
              obtain ⟨cs, cs', hcs, hcs', hh1, hh2⟩ := hc2 as j r h2
              refine ⟨cs, cs', ?_, ?_, hh1, hh2⟩
              · rw [subdirsAt_cons _ _ _ _ _ _ _ _ _ hg]
                exact hcs
              · simp only [update_size]
                rw [subdirsAt_cons _ _ _ _ _ _ _ _ _ hgs]
                exact hcs'

/-- Witness for C8 on `treeDemo`: removing the 3-byte file `/r/a` at path
`[0]` succeeds and the root's size drops from 5 to 2. -/
theorem claim8_leaf_removal_sizes_witness :
    ∃ t', remove_file_at oracleOk treeDemo [0] = .ok (some t', true) ∧
      (∀ q, q <+: [0] → q ≠ [0] →
        ∃ n m, nodeAt treeDemo q = some n ∧ nodeAt t' q = some m ∧
          m.size + 3 = n.size ∧ m.name = n.name) ∧
      (∀ q j r, ([0] : List Nat) = q ++ j :: r →
        ∃ cs cs', subdirsAt treeDemo q = some cs ∧ subdirsAt t' q = some cs' ∧
          (r = [] → cs' = cs.eraseIdx j) ∧
          (r ≠ [] → ∃ c c', cs[j]? = some c ∧ cs' = cs.set j c')) :=
  claim8_leaf_removal_sizes [0] oracleOk treeDemo "/r/a" 8 3 rfl (by simp)
    (by decide) rfl

/-- C2 is contradicted by the code: a failing `lstat` on a non-root child
(`a`, `errno = 2`) makes `build_tree` call `err(errno, ...)`, which exits the
whole process with code 2; the entry is not skipped, the sibling `c` is never
visited, and no tree is returned.  (The skip-with-warning machinery after the
`err` call is dead code, showing the claim is what the author intended.) -/
theorem claim2_child_stat_failure_exits :
    build_tree "/r" (FS.dir "r" 10 true
      [FS.file "b" 8 5, FS.statFail "a" 2, FS.file "c" 8 7]) = .error 2 := rfl

/-- C3 is contradicted by the code: when the child `/d/bad` of directory `/d`
fails both `unlink` and `rmdir` (`errno = 13`), `remove_file_internal` calls
`err` inside the child's removal, exiting the process with code 13; the
failed child never "remains in the children list", the directory's removal is
not merely "skipped", and `update_size` never runs.  (The `result = false`
partial-failure machinery after each `err` is dead code.) -/
theorem claim3_failed_child_removal_exits :
    remove_file_at oracleBad dirDemo [] = .error 13 := rfl

/-- C4 is contradicted by the code: a `/rm` name that resolves to no child
makes `next_entity` return `NULL`, and `process_rm` then dereferences it in
`to_remove->parent` — a segmentation fault, not a reported error with an
unchanged cursor. -/
theorem claim4_rm_unresolved_name_crashes :
    process_rm oracleOk dirNoChild [] "zzz" = .error .crash := rfl

/-- C9 is contradicted by the code: a root path whose `lstat` fails with
`errno = 2` terminates the process via `err(errno, ...)` with exit code 2 —
neither 0 nor 1 (`main`'s `exit_code = 1` after the dead NULL check is
unreachable). -/
theorem claim9_exit_code_errno :
    main_startup 1 none "/x" (FS.statFail "x" 2) = .inl 2 ∧
      (2 : Nat) ≠ 0 ∧ (2 : Nat) ≠ 1 :=
  ⟨rfl, by decide, by decide⟩

/-- C10 counterexample: with the `/rm` target being the root (a plain file
`/r`) and both `unlink` and `rmdir` failing with `errno = 13`, the session
does NOT terminate with exit code 0 and the `[INFO]` message: `err` inside
`remove_file` exits the process with code 13 before `process_rm` regains
control, so `parent` is never returned and nothing is printed. -/
theorem claim10_root_rm_failure_cex :
    process_rm oracleFailAll rootFileDemo [] "" = .error (.exitc 13) := rfl

/-- C10 amended: `process_rm` computes the returned node (the target's
parent) before invoking the deletion and returns it without consulting the
deletion's result — but only when `remove_file` actually returns, which
(failures exiting via `err`) is exactly when the on-disk removal succeeded.
Whenever the target is the root and `process_rm` completes, the returned
cursor is `NULL`, the `[INFO] removed root directory; exiting` message is
printed, and `main` ends the session with exit code 0. -/
theorem claim10_root_rm_returns_parent :
    ∀ (o : Oracle) (t : Node) (p : List Nat) (line : String)
      (pr : Option (List Nat)) (tr : Option Node) (msgs : List String),
      (if is_empty_line line then some p else next_entity t p line) = some [] →
      process_rm o t p line = .ok (pr, tr, msgs) →
      pr = none ∧ msgs = ["[INFO] removed root directory; exiting"] ∧
        rm_exit pr = some 0 := by
  intro o t p line pr tr msgs htgt hpr
  unfold process_rm at hpr
  rw [htgt] at hpr
  simp at hpr
  cases hrm : remove_file_at o t [] with
  | error e => rw [hrm] at hpr; simp at hpr
  | ok res =>
    obtain ⟨t2, b2⟩ := res
    rw [hrm] at hpr
    simp at hpr
    obtain ⟨h1, h2, h3⟩ := hpr
    subst h1
    subst h3
    exact ⟨rfl, rfl, rfl⟩

/-- Witness for the amended C10: removing the file root `/r` with an
all-success oracle returns the null parent, prints the message, and `main`
exits with code 0. -/
theorem claim10_root_rm_returns_parent_witness :
    (none : Option (List Nat)) = none ∧
      (["[INFO] removed root directory; exiting"] : List String) =
        ["[INFO] removed root directory; exiting"] ∧
      rm_exit none = some 0 :=
  claim10_root_rm_returns_parent oracleOk rootFileDemo [] "" none none
    ["[INFO] removed root directory; exiting"] rfl rfl
